import Mathlib

/-!
Shallow embedding of the MeridianDollar revenue-dashboard pipeline scripts
(`redemptions.py`, `mint_incentives.py`, `general_staking_fees.py`,
`main.py`, `helper.py`), together with proofs of the checkpoint/resume and
accumulator properties stated in the specification.

Modelling conventions:
* Python float amounts and prices are modelled as exact rationals `ℚ`; the
  properties under study are algebraic identities of the update rules.
* Block numbers and (normalised) dates are modelled as integers `ℤ`.
* Event log entries carry a `uint256` wei amount, modelled as `ℕ`.
* The while-loops over block ranges are modelled with an explicit fuel
  argument bounding the number of iterations; the chain tip that
  `w3.eth.block_number` re-reads after every iteration is an arbitrary
  function of the remaining fuel, so a chain that grows (or reorganises)
  during the run is covered.  Exhausting the fuel truncates the run, which
  is harmless for claims about the rows appended so far.
* Fallible code is modelled with `Except PyErr`.
-/

/-- A row of a raw ledger CSV `[block, date_time, cumulative_raw]`. -/
structure RawRow where
  block : ℤ
  date : ℤ
  amount : ℚ
deriving DecidableEq

/-- A row of a USD ledger CSV `[block, date_time, amount_raw, cumulative_usd]`. -/
structure UsdRow where
  block : ℤ
  date : ℤ
  amount_raw : ℚ
  cumulative_usd : ℚ
deriving DecidableEq

/-- Python exception kinds raised by the embedded code paths. -/
inductive PyErr where
  | fileNotFoundError : PyErr
  | nameError : String → PyErr
  | indexError : PyErr
deriving DecidableEq

namespace Helper

/-- One comparison step of the pandas `Series.idxmin` reduction used by
`find_closest_price`: keep the current best match unless the candidate has a
strictly smaller absolute date distance, so the first minimum wins (that is
what `idxmin` returns on ties). -/
def closerTo (d : ℤ) (best q : ℤ × ℚ) : ℤ × ℚ :=
  if |q.1 - d| < |best.1 - d| then q else best

/-- Embeds `helper.find_closest_price` (and its identical copies in
`redemptions.py` and `mint_incentives.py`): compute the absolute difference
of every cached date to the requested date and return the price stored at
the first index attaining the minimum (`diffs.idxmin()`).  The date argument
is the already-normalised integer day code of the requested timestamp.
pandas raises on an empty frame; that branch returns 0 and is never reached
by the properties proved below. -/
def find_closest_price (prices : List (ℤ × ℚ)) (d : ℤ) : ℚ :=
  match prices with
  | [] => 0
  | p :: ps => (ps.foldl (closerTo d) p).2

end Helper

namespace Redemptions

/-- Wei per token unit, `WEI = 10 ** 18` in `redemptions.py`. -/
def WEI : ℚ := 10 ^ 18

/-- Embeds `redemptions.parse_redemption_logs`: sum the `_ETHFee` wei
amount of every Redemption log, converted from wei to ETH, starting from
`0.0`. -/
def parse_redemption_logs (logs : List ℕ) : ℚ :=
  logs.foldl (fun s (wei : ℕ) => s + (wei : ℚ) / WEI) 0

/-- Embeds the chunk loop of `redemptions.process_redemptions_network`
(lines 292-311).  `logsIn a b` is the list of `_ETHFee` wei amounts
returned by `fetch_redemption_logs` for the block range `[a, b]` (an RPC
failure there is caught and yields `[]`); `dateOf b` is the timestamp of
block `b`; `tipSeq` gives the chain tip value re-read at the end of each
iteration; `fuel` bounds the number of iterations.  Each iteration sums
the chunk, adds it to the running cumulative and appends exactly one
checkpoint row keyed by `to_block`. -/
def process_redemptions_network (logsIn : ℤ → ℤ → List ℕ) (dateOf : ℤ → ℤ)
    (inc : ℤ) (tipSeq : ℕ → ℤ) :
    ℕ → ℤ → ℚ → ℤ → List RawRow
  | 0, _, _, _ => []
  | fuel + 1, last, cum, tip =>
    if last < tip then
      ⟨min (last + inc) tip, dateOf (min (last + inc) tip),
        cum + parse_redemption_logs (logsIn last (min (last + inc) tip))⟩ ::
      process_redemptions_network logsIn dateOf inc tipSeq fuel
        (min (last + inc) tip + 1)
        (cum + parse_redemption_logs (logsIn last (min (last + inc) tip)))
        (tipSeq fuel)
    else []

/-- Embeds `redemptions.calculate_new_usd_rows`: walk the new raw rows in
order, convert each incremental difference `eth_amount - prev` at the
nearest-date price, accumulate into `usd_redemptions`, and update the
previous amount. -/
def calculate_new_usd_rows (prices : List (ℤ × ℚ)) (prevRaw prevUsd : ℚ) :
    List RawRow → List UsdRow
  | [] => []
  | r :: rs =>
    ⟨r.block, r.date, r.amount,
      prevUsd + (r.amount - prevRaw) * Helper.find_closest_price prices r.date⟩ ::
    calculate_new_usd_rows prices r.amount
      (prevUsd + (r.amount - prevRaw) * Helper.find_closest_price prices r.date) rs

/-- Final `(prev_eth_amount, cumulative_usd)` loop state after running
`calculate_new_usd_rows` over a list of raw rows. -/
def usdFinal (prices : List (ℤ × ℚ)) (prevRaw prevUsd : ℚ) :
    List RawRow → ℚ × ℚ
  | [] => (prevRaw, prevUsd)
  | r :: rs =>
    usdFinal prices r.amount
      (prevUsd + (r.amount - prevRaw) * Helper.find_closest_price prices r.date) rs

/-- Models `existing_usd_df["block"].max()`: `none` plays the role of the
NaN that pandas returns for an empty frame (every `NaN < x` comparison is
false, so nothing passes the subsequent filter). -/
def maxBlock : List UsdRow → Option ℤ
  | [] => none
  | u :: us =>
    match maxBlock us with
    | none => some u.block
    | some m => some (max u.block m)

/-- Stable insertion of a USD row into a block-sorted list, placing the new
row after existing rows with the same block. -/
def insertByBlock (u : UsdRow) : List UsdRow → List UsdRow
  | [] => [u]
  | v :: vs =>
    if v.block ≤ u.block then v :: insertByBlock u vs else u :: v :: vs

/-- Models `combined.sort_values(by="block")`: sort the concatenated ledger
by block number. -/
def sortByBlock (l : List UsdRow) : List UsdRow :=
  l.foldr insertByBlock []

/-- Embeds the ledger-update logic of `redemptions.process_redemptions_usd`
(lines 394-428): with no existing USD file, compute from scratch starting
from `(0, 0)`; otherwise convert only the raw rows strictly newer than the
maximal existing block, resuming from the last stored row carrying that
block, and rewrite the whole concatenation sorted by block.  An existing
frame with no rows gives `last_block = NaN`, so no raw row passes the
filter and the frame is written back unchanged; `.iloc[-1]` on an empty
selection raises `IndexError`. -/
def usd_ledger_update (prices : List (ℤ × ℚ)) (raw : List RawRow) :
    Option (List UsdRow) → Except PyErr (List UsdRow)
  | none => .ok (calculate_new_usd_rows prices 0 0 raw)
  | some ex =>
    match maxBlock ex with
    | none => .ok ex
    | some lastBlock =>
      if (raw.filter (fun r => lastBlock < r.block)).isEmpty then .ok ex
      else
        match (ex.filter (fun u => u.block = lastBlock)).getLast? with
        | none => .error .indexError
        | some lastRow =>
          .ok (sortByBlock (ex ++ calculate_new_usd_rows prices
            lastRow.amount_raw lastRow.cumulative_usd
            (raw.filter (fun r => lastBlock < r.block))))

/-- Top-level names bound in the module `redemptions.py` (its imports and
every `def` or assignment statement), used to model Python name resolution
at call time. -/
def module_names : List String :=
  ["os", "csv", "json", "time", "requests", "pd", "datetime", "timedelta",
   "Web3", "abis", "TROVE_MANAGER_ABI", "WEI", "coingecko_fetch_prices",
   "generate_fixed_telos_prices",
   "maybe_generate_or_update_historical_prices_csv",
   "load_historical_prices", "find_closest_price", "CONFIG", "CSV_FOLDER",
   "setup_web3", "get_block_datetime", "raw_csv_path", "usd_csv_path",
   "load_existing_raw_csv", "append_raw_csv", "fetch_redemption_logs",
   "parse_redemption_logs", "process_redemptions_network",
   "load_raw_redemptions_csv", "load_existing_usd_csv",
   "calculate_new_usd_rows", "process_redemptions_usd", "main"]

/-- Embeds `redemptions.process_redemptions_usd` as executed: load the raw
CSV (raising `FileNotFoundError` when the file is missing), then call
`maybe_generate_historical_prices_csv`.  That name is bound nowhere in the
module (only `maybe_generate_or_update_historical_prices_csv` is defined),
and Python resolves names at call time, so the call raises `NameError`;
only when the name resolves would the ledger update run. -/
def process_redemptions_usd (rawExists : Bool) (prices : List (ℤ × ℚ))
    (raw : List RawRow) (existing : Option (List UsdRow)) :
    Except PyErr (List UsdRow) :=
  if rawExists = false then .error .fileNotFoundError
  else if "maybe_generate_historical_prices_csv" ∈ module_names then
    usd_ledger_update prices raw existing
  else .error (.nameError "maybe_generate_historical_prices_csv")

/-- Embeds the per-network phase loops of `redemptions.main` (lines
443-450), whose bodies have no try/except: run the body for each network in
order; an exception aborts the loop, returning the list of networks that
were fully processed together with the escaping exception, if any. -/
def run_networks (proc : String → Except String Unit) :
    List String → List String × Option String
  | [] => ([], none)
  | n :: ns =>
    match proc n with
    | .ok _ =>
      ((run_networks proc ns).1.cons n, (run_networks proc ns).2)
    | .error e => ([], some e)

end Redemptions

namespace MintIncentives

/-- Wei per token unit, `WEI = 10 ** 18` in `mint_incentives.py`. -/
def WEI : ℚ := 10 ^ 18

/-- Embeds `mint_incentives.parse_issuance_logs`: return the highest
`latestTotalRewardsIssued` value observed in the block range, converted
from wei, starting from `0.0`. -/
def parse_issuance_logs (logs : List ℕ) : ℚ :=
  logs.foldl
    (fun m (wei : ℕ) => if m < (wei : ℚ) / WEI then (wei : ℚ) / WEI else m) 0

/-- Embeds the chunk loop of
`mint_incentives.process_lqty_issuance_network` (lines 333-360): per chunk
fetch the issuance logs and, when the chunk is non-empty and its maximal
observed total exceeds the running cumulative, replace the cumulative;
append exactly one row per chunk either way. -/
def process_lqty_issuance_network (logsIn : ℤ → ℤ → List ℕ) (dateOf : ℤ → ℤ)
    (inc : ℤ) (tipSeq : ℕ → ℤ) :
    ℕ → ℤ → ℚ → ℤ → List RawRow
  | 0, _, _, _ => []
  | fuel + 1, last, cum, tip =>
    if last ≤ tip then
      ⟨min (last + inc - 1) tip, dateOf (min (last + inc - 1) tip),
        if (logsIn last (min (last + inc - 1) tip)).isEmpty then cum
        else if cum < parse_issuance_logs (logsIn last (min (last + inc - 1) tip)) then
          parse_issuance_logs (logsIn last (min (last + inc - 1) tip))
        else cum⟩ ::
      process_lqty_issuance_network logsIn dateOf inc tipSeq fuel
        (min (last + inc - 1) tip + 1)
        (if (logsIn last (min (last + inc - 1) tip)).isEmpty then cum
         else if cum < parse_issuance_logs (logsIn last (min (last + inc - 1) tip)) then
           parse_issuance_logs (logsIn last (min (last + inc - 1) tip))
         else cum)
        (tipSeq fuel)
    else []

/-- Embeds `mint_incentives.calculate_new_usd_rows`: like the redemptions
variant, but a negative increment is clamped to zero (with a logged
warning) before the USD conversion. -/
def calculate_new_usd_rows (prices : List (ℤ × ℚ)) (prevRaw prevUsd : ℚ) :
    List RawRow → List UsdRow
  | [] => []
  | r :: rs =>
    ⟨r.block, r.date, r.amount,
      prevUsd + (if r.amount - prevRaw < 0 then 0 else r.amount - prevRaw) *
        Helper.find_closest_price prices r.date⟩ ::
    calculate_new_usd_rows prices r.amount
      (prevUsd + (if r.amount - prevRaw < 0 then 0 else r.amount - prevRaw) *
        Helper.find_closest_price prices r.date) rs

end MintIncentives

namespace GeneralStakingFees

/-- Embeds `general_staking_fees.calculate_new_usd_rows`: identical update
rule to the redemptions variant (increment times price with no clamping),
accumulated into `usd_rewards`. -/
def calculate_new_usd_rows (prices : List (ℤ × ℚ)) (prevRaw prevUsd : ℚ) :
    List RawRow → List UsdRow
  | [] => []
  | r :: rs =>
    ⟨r.block, r.date, r.amount,
      prevUsd + (r.amount - prevRaw) * Helper.find_closest_price prices r.date⟩ ::
    calculate_new_usd_rows prices r.amount
      (prevUsd + (r.amount - prevRaw) * Helper.find_closest_price prices r.date) rs

end GeneralStakingFees

namespace MainPipeline

/-- Embeds the historical-price loop of `main.main` (lines 402-423), whose
fetching body is wrapped in try/except per network: every network is
attempted and paired with whether its fetch succeeded; no exception
escapes the loop. -/
def run_price_loop (proc : String → Except String Unit) :
    List String → List (String × Bool)
  | [] => []
  | n :: ns =>
    (n, match proc n with | .ok _ => true | .error _ => false) ::
    run_price_loop proc ns

end MainPipeline

/-! ### Supporting lemmas -/

/-- The optional last element of a cons with a non-empty tail is the
optional last element of the tail. -/
theorem getLast?_cons_of_ne {α : Type} (a : α) (l : List α) (h : l ≠ []) :
    (a :: l).getLast? = l.getLast? := by
  cases l with
  | nil => exact absurd rfl h
  | cons b bs => exact List.getLast?_cons_cons

/-- The `idxmin` reduction step selects, over a whole list, either the
initial best match (when nothing beats it) or the first element of the list
that strictly beats the initial best and every element before it and is no
farther than every element after it. -/
theorem closerTo_foldl_spec (d : ℤ) (xs : List (ℤ × ℚ)) (best : ℤ × ℚ) :
    (xs.foldl (Helper.closerTo d) best = best ∧ ∀ q ∈ xs, |best.1 - d| ≤ |q.1 - d|) ∨
    (∃ pre q post, xs = pre ++ q :: post ∧ xs.foldl (Helper.closerTo d) best = q ∧
      |q.1 - d| < |best.1 - d| ∧ (∀ z ∈ pre, |q.1 - d| < |z.1 - d|) ∧
      (∀ z ∈ post, |q.1 - d| ≤ |z.1 - d|)) := by
  induction xs generalizing best with
  | nil => exact Or.inl ⟨rfl, by simp⟩
  | cons x xs ih =>
    simp only [List.foldl_cons]
    by_cases hx : |x.1 - d| < |best.1 - d|
    · rw [show Helper.closerTo d best x = x from if_pos hx]
      rcases ih x with ⟨heq, hall⟩ | ⟨pre, q, post, hsplit, heq, hlt, hpre, hpost⟩
      · exact Or.inr ⟨[], x, xs, by simp, heq, hx, by simp, hall⟩
      · refine Or.inr ⟨x :: pre, q, post, by rw [hsplit, List.cons_append], heq,
          lt_trans hlt hx, ?_, hpost⟩
        intro z hz
        rcases List.mem_cons.mp hz with rfl | hz2
        · exact hlt
        · exact hpre z hz2
    · rw [show Helper.closerTo d best x = best from if_neg hx]
      rcases ih best with ⟨heq, hall⟩ | ⟨pre, q, post, hsplit, heq, hlt, hpre, hpost⟩
      · refine Or.inl ⟨heq, ?_⟩
        intro q hq
        rcases List.mem_cons.mp hq with rfl | hq2
        · exact le_of_not_lt hx
        · exact hall q hq2
      · refine Or.inr ⟨x :: pre, q, post, by rw [hsplit, List.cons_append], heq, hlt, ?_, hpost⟩
        intro z hz
        rcases List.mem_cons.mp hz with rfl | hz2
        · exact lt_of_lt_of_le hlt (le_of_not_lt hx)
        · exact hpre z hz2

/-! ### Claims -/

/-- C5: for every non-empty price cache and every query date, the
nearest-date price lookup returns the price of a cached entry whose date
has minimum absolute distance to the query date, and on an exact distance
tie it returns the entry the minimum-of-absolute-difference reduction
selects first: the chosen entry is strictly closer than every entry that
precedes it in the cache. -/
theorem find_closest_price_is_min_distance (prices : List (ℤ × ℚ)) (d : ℤ)
    (h : prices ≠ []) :
    ∃ pre p post, prices = pre ++ p :: post ∧
      Helper.find_closest_price prices d = p.2 ∧
      (∀ q ∈ prices, |p.1 - d| ≤ |q.1 - d|) ∧
      (∀ q ∈ pre, |p.1 - d| < |q.1 - d|) := by
  match prices, h with
  | x :: xs, _ =>
    show ∃ pre p post, x :: xs = pre ++ p :: post ∧
      (xs.foldl (Helper.closerTo d) x).2 = p.2 ∧ _ ∧ _
    rcases closerTo_foldl_spec d xs x with ⟨heq, hall⟩ | ⟨pre, q, post, hsplit, heq, hlt, hpre, hpost⟩
    · refine ⟨[], x, xs, by simp, by rw [heq], ?_, by simp⟩
      intro q hq
      rcases List.mem_cons.mp hq with rfl | hq2
      · exact le_refl _
      · exact hall q hq2
    · refine ⟨x :: pre, q, post, by rw [hsplit, List.cons_append], by rw [heq], ?_, ?_⟩
      · intro z hz
        rcases List.mem_cons.mp hz with rfl | hz2
        · exact le_of_lt hlt
        · rw [hsplit] at hz2
          rcases List.mem_append.mp hz2 with hz3 | hz3
          · exact le_of_lt (hpre z hz3)
          · rcases List.mem_cons.mp hz3 with rfl | hz4
            · exact le_refl _
            · exact hpost z hz4
      · intro z hz
        rcases List.mem_cons.mp hz with rfl | hz2
        · exact hlt
        · exact hpre z hz2

/-- Witness for C5 at the concrete cache `[(0, 2), (1, 3)]` and query date 5. -/
theorem find_closest_price_is_min_distance_witness :
    ∃ pre p post, ([((0 : ℤ), (2 : ℚ)), (1, 3)]) = pre ++ p :: post ∧
      Helper.find_closest_price [(0, 2), (1, 3)] 5 = p.2 ∧
      (∀ q ∈ ([((0 : ℤ), (2 : ℚ)), (1, 3)]), |p.1 - 5| ≤ |q.1 - 5|) ∧
      (∀ q ∈ pre, |p.1 - 5| < |q.1 - 5|) :=
  find_closest_price_is_min_distance [(0, 2), (1, 3)] 5 (by decide)

/-- C2: the USD Converter computes each output row by the incremental
formula `cumulative_usd = prev_usd + (row.cumulative_raw - prev_raw) *
price(row date)` and updates `prev_raw` after each row; on the raw ledger
`[(100, day 0, 10), (200, day 1, 25)]` with prices `day 0 = 2, day 1 = 3`
and starting pair `(0, 0)` it produces the cumulative USD values `20` and
`65`. -/
theorem usd_converter_example :
    Redemptions.calculate_new_usd_rows [(0, 2), (1, 3)] 0 0
      [⟨100, 0, 10⟩, ⟨200, 1, 25⟩] =
      [⟨100, 0, 10, 20⟩, ⟨200, 1, 25, 65⟩] := by
  simp only [Redemptions.calculate_new_usd_rows, Helper.find_closest_price,
    Helper.closerTo, List.foldl]
  norm_num

/-- Converting a concatenation of raw rows equals converting the first part
and then converting the second part from the loop state left by the first. -/
theorem calculate_new_usd_rows_append (prices : List (ℤ × ℚ))
    (xs ys : List RawRow) (prevRaw prevUsd : ℚ) :
    Redemptions.calculate_new_usd_rows prices prevRaw prevUsd (xs ++ ys) =
      Redemptions.calculate_new_usd_rows prices prevRaw prevUsd xs ++
      Redemptions.calculate_new_usd_rows prices
        (Redemptions.usdFinal prices prevRaw prevUsd xs).1
        (Redemptions.usdFinal prices prevRaw prevUsd xs).2 ys := by
  induction xs generalizing prevRaw prevUsd with
  | nil => simp [Redemptions.calculate_new_usd_rows, Redemptions.usdFinal]
  | cons r rs ih =>
    simp only [List.cons_append, Redemptions.calculate_new_usd_rows,
      Redemptions.usdFinal, List.cons.injEq, true_and]
    exact ih _ _

/-- The last row written by the converter carries exactly the final loop
state: its stored raw amount is the final previous amount and its stored
cumulative USD is the final cumulative. -/
theorem calculate_new_usd_rows_getLast (prices : List (ℤ × ℚ))
    (prevRaw prevUsd : ℚ) :
    ∀ xs : List RawRow, xs ≠ [] →
      ∃ u, (Redemptions.calculate_new_usd_rows prices prevRaw prevUsd xs).getLast? = some u ∧
        u.amount_raw = (Redemptions.usdFinal prices prevRaw prevUsd xs).1 ∧
        u.cumulative_usd = (Redemptions.usdFinal prices prevRaw prevUsd xs).2 := by
  intro xs
  induction xs generalizing prevRaw prevUsd with
  | nil => intro h; exact absurd rfl h
  | cons r rs ih =>
    intro _
    cases rs with
    | nil =>
      exact ⟨⟨r.block, r.date, r.amount,
          prevUsd + (r.amount - prevRaw) * Helper.find_closest_price prices r.date⟩,
        by simp [Redemptions.calculate_new_usd_rows], rfl, rfl⟩
    | cons r2 rs2 =>
      obtain ⟨u, hu, h1, h2⟩ := ih r.amount
        (prevUsd + (r.amount - prevRaw) * Helper.find_closest_price prices r.date)
        (List.cons_ne_nil r2 rs2)
      refine ⟨u, ?_, h1, h2⟩
      rw [show Redemptions.calculate_new_usd_rows prices prevRaw prevUsd (r :: r2 :: rs2) =
        ⟨r.block, r.date, r.amount,
          prevUsd + (r.amount - prevRaw) * Helper.find_closest_price prices r.date⟩ ::
        Redemptions.calculate_new_usd_rows prices r.amount
          (prevUsd + (r.amount - prevRaw) * Helper.find_closest_price prices r.date)
          (r2 :: rs2) from rfl,
        getLast?_cons_of_ne _ _ (by simp [Redemptions.calculate_new_usd_rows])]
      exact hu

/-- C1: checkpoint-resume consistency of the USD Converter: converting the
whole raw ledger from scratch produces exactly the ledger obtained by
converting a non-empty prefix from scratch and then converting the rest
resuming from the stored `(amount_raw, cumulative_usd)` of the last
converted row; in particular the final `cumulative_usd` agrees. -/
theorem checkpoint_resume_consistency (prices : List (ℤ × ℚ))
    (rows1 rows2 : List RawRow) (h1 : rows1 ≠ []) (lastRow : UsdRow)
    (hlast : (Redemptions.calculate_new_usd_rows prices 0 0 rows1).getLast? = some lastRow) :
    Redemptions.calculate_new_usd_rows prices 0 0 (rows1 ++ rows2) =
      Redemptions.calculate_new_usd_rows prices 0 0 rows1 ++
        Redemptions.calculate_new_usd_rows prices lastRow.amount_raw
          lastRow.cumulative_usd rows2 ∧
    (Redemptions.calculate_new_usd_rows prices 0 0 (rows1 ++ rows2)).getLast?.map
        UsdRow.cumulative_usd =
      (Redemptions.calculate_new_usd_rows prices 0 0 rows1 ++
        Redemptions.calculate_new_usd_rows prices lastRow.amount_raw
          lastRow.cumulative_usd rows2).getLast?.map UsdRow.cumulative_usd := by
  obtain ⟨u, hu, hua, huc⟩ := calculate_new_usd_rows_getLast prices 0 0 rows1 h1
  rw [hlast] at hu
  cases hu
  constructor
  · rw [calculate_new_usd_rows_append, ← hua, ← huc]
  · rw [calculate_new_usd_rows_append, ← hua, ← huc]

/-- The running sum inside `parse_redemption_logs` never drops below its
starting value: every `uint256` wei amount contributes a non-negative ETH
value. -/
theorem parse_redemption_logs_foldl_le (logs : List ℕ) (s : ℚ) :
    s ≤ logs.foldl (fun a (wei : ℕ) => a + (wei : ℚ) / Redemptions.WEI) s := by
  induction logs generalizing s with
  | nil => exact le_refl s
  | cons w ws ih =>
    simp only [List.foldl_cons]
    refine le_trans ?_ (ih (s + (w : ℚ) / Redemptions.WEI))
    have hw : (0 : ℚ) ≤ (w : ℚ) / Redemptions.WEI := by
      apply div_nonneg (by positivity)
      norm_num [Redemptions.WEI]
    linarith

/-- Each chunk contribution of the redemptions accumulator is a sum of
non-negative event amounts, hence non-negative. -/
theorem parse_redemption_logs_nonneg (logs : List ℕ) :
    0 ≤ Redemptions.parse_redemption_logs logs :=
  parse_redemption_logs_foldl_le logs 0

/-- Every row appended by the redemptions chunk loop carries a cumulative
at least the entering cumulative and a block at least the entering
last-synced block. -/
theorem process_redemptions_network_mem (logsIn : ℤ → ℤ → List ℕ)
    (dateOf : ℤ → ℤ) (inc : ℤ) (tipSeq : ℕ → ℤ) (hinc : 1 ≤ inc) :
    ∀ (fuel : ℕ) (last : ℤ) (cum : ℚ) (tip : ℤ) (r : RawRow),
      r ∈ Redemptions.process_redemptions_network logsIn dateOf inc tipSeq fuel last cum tip →
      cum ≤ r.amount ∧ last ≤ r.block := by
  intro fuel
  induction fuel with
  | zero =>
    intro last cum tip r hr
    simp [Redemptions.process_redemptions_network] at hr
  | succ n ih =>
    intro last cum tip r hr
    simp only [Redemptions.process_redemptions_network] at hr
    by_cases h : last < tip
    · rw [if_pos h] at hr
      rcases List.mem_cons.mp hr with rfl | hr2
      · exact ⟨le_add_of_nonneg_right (parse_redemption_logs_nonneg _),
          le_min (by linarith) (le_of_lt h)⟩
      · obtain ⟨h1, h2⟩ := ih _ _ _ _ hr2
        refine ⟨le_trans (le_add_of_nonneg_right (parse_redemption_logs_nonneg _)) h1, ?_⟩
        have hmin : last ≤ min (last + inc) tip := le_min (by linarith) (le_of_lt h)
        linarith
    · rw [if_neg h] at hr
      simp at hr

/-- C3: for every run of the sum-based redemptions Raw Accumulator (whose
chunk contributions are sums of non-negative event amounts) with a positive
block increment, the cumulative value is non-decreasing from each appended
row to the next and the block values of appended rows are strictly
increasing. -/
theorem raw_ledger_monotone (logsIn : ℤ → ℤ → List ℕ) (dateOf : ℤ → ℤ)
    (inc : ℤ) (tipSeq : ℕ → ℤ) (hinc : 1 ≤ inc) (fuel : ℕ) (start : ℤ)
    (cum0 : ℚ) (tip : ℤ) :
    List.Chain' (fun a b : RawRow => a.amount ≤ b.amount)
      (Redemptions.process_redemptions_network logsIn dateOf inc tipSeq fuel start cum0 tip) ∧
    List.Chain' (fun a b : RawRow => a.block < b.block)
      (Redemptions.process_redemptions_network logsIn dateOf inc tipSeq fuel start cum0 tip) := by
  induction fuel generalizing start cum0 tip with
  | zero =>
    constructor <;> simp [Redemptions.process_redemptions_network]
  | succ n ih =>
    simp only [Redemptions.process_redemptions_network]
    by_cases h : start < tip
    · rw [if_pos h]
      obtain ⟨iha, ihb⟩ := ih (min (start + inc) tip + 1)
        (cum0 + Redemptions.parse_redemption_logs (logsIn start (min (start + inc) tip)))
        (tipSeq n)
      constructor
      · rw [List.chain'_cons']
        refine ⟨?_, iha⟩
        intro y hy
        exact (process_redemptions_network_mem logsIn dateOf inc tipSeq hinc
          _ _ _ _ y (List.mem_of_mem_head? hy)).1
      · rw [List.chain'_cons']
        refine ⟨?_, ihb⟩
        intro y hy
        have hb := (process_redemptions_network_mem logsIn dateOf inc tipSeq hinc
          _ _ _ _ y (List.mem_of_mem_head? hy)).2
        show min (start + inc) tip < y.block
        linarith
    · rw [if_neg h]
      constructor <;> exact List.chain'_nil

/-- Witness for C3: a three-iteration run with one event of one full token
per chunk, increment 2 and a fixed chain tip of 5. -/
theorem raw_ledger_monotone_witness :
    List.Chain' (fun a b : RawRow => a.amount ≤ b.amount)
      (Redemptions.process_redemptions_network (fun _ _ => [10 ^ 18]) (fun b => b) 2
        (fun _ => 5) 3 0 0 5) ∧
    List.Chain' (fun a b : RawRow => a.block < b.block)
      (Redemptions.process_redemptions_network (fun _ _ => [10 ^ 18]) (fun b => b) 2
        (fun _ => 5) 3 0 0 5) :=
  raw_ledger_monotone (fun _ _ => [10 ^ 18]) (fun b => b) 2 (fun _ => 5)
    (by norm_num) 3 0 0 5

/-- C6: whenever the loop condition holds, a chunk appends exactly one
checkpoint row (the run is that row consed onto the rest of the run), and a
chunk containing zero matching events appends a row with the cumulative
value unchanged while strictly advancing the block checkpoint. -/
theorem chunk_appends_one_row (logsIn : ℤ → ℤ → List ℕ) (dateOf : ℤ → ℤ)
    (inc : ℤ) (tipSeq : ℕ → ℤ) (fuel : ℕ) (last : ℤ) (cum : ℚ) (tip : ℤ)
    (hinc : 0 < inc) (h : last < tip) :
    Redemptions.process_redemptions_network logsIn dateOf inc tipSeq (fuel + 1) last cum tip =
      ⟨min (last + inc) tip, dateOf (min (last + inc) tip),
        cum + Redemptions.parse_redemption_logs (logsIn last (min (last + inc) tip))⟩ ::
      Redemptions.process_redemptions_network logsIn dateOf inc tipSeq fuel
        (min (last + inc) tip + 1)
        (cum + Redemptions.parse_redemption_logs (logsIn last (min (last + inc) tip)))
        (tipSeq fuel) ∧
    (logsIn last (min (last + inc) tip) = [] →
      cum + Redemptions.parse_redemption_logs (logsIn last (min (last + inc) tip)) = cum ∧
      last < min (last + inc) tip) := by
  constructor
  · simp only [Redemptions.process_redemptions_network, if_pos h]
  · intro he
    rw [he]
    refine ⟨?_, lt_min (by linarith) h⟩
    simp [Redemptions.parse_redemption_logs]

/-- Witness for C6: a chunk `[0, 1]` with no matching events, increment
30000 and chain tip 1. -/
theorem chunk_appends_one_row_witness :
    Redemptions.process_redemptions_network (fun _ _ => []) (fun b => b) 30000
        (fun _ => 1) (0 + 1) 0 0 1 =
      ⟨min (0 + 30000) 1, min (0 + 30000) 1,
        0 + Redemptions.parse_redemption_logs []⟩ ::
      Redemptions.process_redemptions_network (fun _ _ => []) (fun b => b) 30000
        (fun _ => 1) 0 (min (0 + 30000) 1 + 1)
        (0 + Redemptions.parse_redemption_logs []) 1 ∧
    (([] : List ℕ) = [] →
      0 + Redemptions.parse_redemption_logs ([] : List ℕ) = 0 ∧
      (0 : ℤ) < min (0 + 30000) 1) :=
  chunk_appends_one_row (fun _ _ => []) (fun b => b) 30000 (fun _ => 1) 0 0 0 1
    (by norm_num) (by norm_num)

/-- Witness for C1 at a concrete two-row raw ledger split after its first
row, with the stored last converted row `(100, day 0, 10, 20)`. -/
theorem checkpoint_resume_consistency_witness :
    Redemptions.calculate_new_usd_rows [(0, 2), (1, 3)] 0 0
        ([⟨100, 0, 10⟩] ++ [⟨200, 1, 25⟩]) =
      Redemptions.calculate_new_usd_rows [(0, 2), (1, 3)] 0 0 [⟨100, 0, 10⟩] ++
        Redemptions.calculate_new_usd_rows [(0, 2), (1, 3)] 10 20 [⟨200, 1, 25⟩] ∧
    (Redemptions.calculate_new_usd_rows [(0, 2), (1, 3)] 0 0
        ([⟨100, 0, 10⟩] ++ [⟨200, 1, 25⟩])).getLast?.map UsdRow.cumulative_usd =
      (Redemptions.calculate_new_usd_rows [(0, 2), (1, 3)] 0 0 [⟨100, 0, 10⟩] ++
        Redemptions.calculate_new_usd_rows [(0, 2), (1, 3)] 10 20
          [⟨200, 1, 25⟩]).getLast?.map UsdRow.cumulative_usd :=
  checkpoint_resume_consistency [(0, 2), (1, 3)] [⟨100, 0, 10⟩] [⟨200, 1, 25⟩]
    (by simp) ⟨100, 0, 10, 20⟩ (by
      simp only [Redemptions.calculate_new_usd_rows, Helper.find_closest_price,
        Helper.closerTo, List.foldl, List.getLast?_singleton]
      norm_num)

/-- Every row appended by the issuance chunk loop carries a cumulative at
least the entering cumulative: the running value is only ever replaced by a
strictly larger chunk maximum. -/
theorem process_lqty_issuance_network_mem (logsIn : ℤ → ℤ → List ℕ)
    (dateOf : ℤ → ℤ) (inc : ℤ) (tipSeq : ℕ → ℤ) :
    ∀ (fuel : ℕ) (last : ℤ) (cum : ℚ) (tip : ℤ) (r : RawRow),
      r ∈ MintIncentives.process_lqty_issuance_network logsIn dateOf inc tipSeq fuel last cum tip →
      cum ≤ r.amount := by
  intro fuel
  induction fuel with
  | zero =>
    intro last cum tip r hr
    simp [MintIncentives.process_lqty_issuance_network] at hr
  | succ n ih =>
    intro last cum tip r hr
    simp only [MintIncentives.process_lqty_issuance_network] at hr
    by_cases h : last ≤ tip
    · rw [if_pos h] at hr
      have hcum : cum ≤ (if (logsIn last (min (last + inc - 1) tip)).isEmpty then cum
          else if cum < MintIncentives.parse_issuance_logs (logsIn last (min (last + inc - 1) tip))
            then MintIncentives.parse_issuance_logs (logsIn last (min (last + inc - 1) tip))
            else cum) := by
        split_ifs with h1 h2
        · exact le_refl cum
        · exact le_of_lt h2
        · exact le_refl cum
      rcases List.mem_cons.mp hr with rfl | hr2
      · exact hcum
      · exact le_trans hcum (ih _ _ _ _ hr2)
    · rw [if_neg h] at hr
      simp at hr

/-- C10: in the max-based mint-incentives Raw Accumulator the persisted
cumulative value is non-decreasing across appended rows for every sequence
of fetched event values (in particular even when the on-chain reported
total decreases between chunks), because the running cumulative is replaced
only when the maximal total observed in a chunk exceeds it. -/
theorem issuance_cumulative_monotone (logsIn : ℤ → ℤ → List ℕ)
    (dateOf : ℤ → ℤ) (inc : ℤ) (tipSeq : ℕ → ℤ) (fuel : ℕ) (start : ℤ)
    (cum0 : ℚ) (tip : ℤ) :
    List.Chain' (fun a b : RawRow => a.amount ≤ b.amount)
      (MintIncentives.process_lqty_issuance_network logsIn dateOf inc tipSeq fuel start cum0 tip) := by
  induction fuel generalizing start cum0 tip with
  | zero => simp [MintIncentives.process_lqty_issuance_network]
  | succ n ih =>
    simp only [MintIncentives.process_lqty_issuance_network]
    by_cases h : start ≤ tip
    · rw [if_pos h]
      rw [List.chain'_cons']
      refine ⟨?_, ih _ _ _⟩
      intro y hy
      exact process_lqty_issuance_network_mem logsIn dateOf inc tipSeq
        _ _ _ _ y (List.mem_of_mem_head? hy)
    · rw [if_neg h]
      exact List.chain'_nil

/-- C7: on a row whose raw amount is smaller than the previous raw amount
(a negative delta), the mint-incentives converter clamps the delta to zero
(logging a warning), so that cumulative USD for the row equals the previous
cumulative USD; the redemptions and staking-fees converters apply no
clamping, so with a positive looked-up price the cumulative USD strictly
decreases. -/
theorem negative_delta_handling (prices : List (ℤ × ℚ)) (prevRaw prevUsd : ℚ)
    (r : RawRow) (rs : List RawRow) (hneg : r.amount < prevRaw) :
    (∃ u rest, MintIncentives.calculate_new_usd_rows prices prevRaw prevUsd (r :: rs) =
        u :: rest ∧ u.cumulative_usd = prevUsd) ∧
    (0 < Helper.find_closest_price prices r.date →
      (∃ u rest, Redemptions.calculate_new_usd_rows prices prevRaw prevUsd (r :: rs) =
          u :: rest ∧ u.cumulative_usd < prevUsd) ∧
      (∃ u rest, GeneralStakingFees.calculate_new_usd_rows prices prevRaw prevUsd (r :: rs) =
          u :: rest ∧ u.cumulative_usd < prevUsd)) := by
  have hd : r.amount - prevRaw < 0 := by linarith
  constructor
  · refine ⟨_, _, rfl, ?_⟩
    show prevUsd + (if r.amount - prevRaw < 0 then 0 else r.amount - prevRaw) *
      Helper.find_closest_price prices r.date = prevUsd
    rw [if_pos hd]
    ring
  · intro hp
    have hlt : prevUsd + (r.amount - prevRaw) * Helper.find_closest_price prices r.date
        < prevUsd := by
      have := mul_neg_of_neg_of_pos hd hp
      linarith
    exact ⟨⟨_, _, rfl, hlt⟩, ⟨_, _, rfl, hlt⟩⟩

/-- Witness for C7: previous pair `(10, 20)`, a row with raw amount 4 and a
cached price of 2 on its date. -/
theorem negative_delta_handling_witness :
    (∃ u rest, MintIncentives.calculate_new_usd_rows [(0, 2)] 10 20 [⟨100, 0, 4⟩] =
        u :: rest ∧ u.cumulative_usd = 20) ∧
    (0 < Helper.find_closest_price [(0, 2)] (0 : ℤ) →
      (∃ u rest, Redemptions.calculate_new_usd_rows [(0, 2)] 10 20 [⟨100, 0, 4⟩] =
          u :: rest ∧ u.cumulative_usd < 20) ∧
      (∃ u rest, GeneralStakingFees.calculate_new_usd_rows [(0, 2)] 10 20 [⟨100, 0, 4⟩] =
          u :: rest ∧ u.cumulative_usd < 20)) :=
  negative_delta_handling [(0, 2)] 10 20 ⟨100, 0, 4⟩ [] (by norm_num)

/-- C8: the USD Converter is idempotent when there is no new data: invoked
against an existing USD ledger whose maximal block is at least every raw
ledger block (as after a successful run), the update returns the existing
ledger unchanged: no rows added and no existing row recomputed. -/
theorem usd_converter_idempotent (prices : List (ℤ × ℚ)) (raw : List RawRow)
    (ex : List UsdRow) (lb : ℤ) (hmax : Redemptions.maxBlock ex = some lb)
    (hnonew : ∀ r ∈ raw, r.block ≤ lb) :
    Redemptions.usd_ledger_update prices raw (some ex) = .ok ex := by
  have hfil : raw.filter (fun r => lb < r.block) = [] := by
    rw [List.filter_eq_nil_iff]
    intro r hr
    simpa using not_lt.mpr (hnonew r hr)
  simp only [Redemptions.usd_ledger_update, hmax, hfil, List.isEmpty_nil, if_true]

/-- Witness for C8: one existing USD row at block 100 and a raw ledger
whose only row is that same block. -/
theorem usd_converter_idempotent_witness :
    Redemptions.usd_ledger_update [(0, 2)] [⟨100, 0, 10⟩] (some [⟨100, 0, 10, 20⟩]) =
      .ok [⟨100, 0, 10, 20⟩] :=
  usd_converter_idempotent [(0, 2)] [⟨100, 0, 10⟩] [⟨100, 0, 10, 20⟩] 100 rfl
    (by intro r hr; rw [List.mem_singleton] at hr; subst hr; exact le_refl _)

/-- C9: whenever the raw ledger file exists, `process_redemptions_usd`
raises `NameError` for `maybe_generate_historical_prices_csv`, a name bound
nowhere in the module, before performing any price lookup or USD
computation, for every price cache, raw ledger and existing USD ledger; no
result ledger is produced, so the USD ledger file is left unchanged. -/
theorem usd_phase_raises_name_error (prices : List (ℤ × ℚ))
    (raw : List RawRow) (existing : Option (List UsdRow)) :
    Redemptions.process_redemptions_usd true prices raw existing =
      .error (.nameError "maybe_generate_historical_prices_csv") := by
  have hmem : "maybe_generate_historical_prices_csv" ∉ Redemptions.module_names := by
    decide
  simp only [Redemptions.process_redemptions_usd, Bool.true_eq_false, if_false]
  rw [if_neg hmem]

/-- A driver loop without try/except runs through an all-successful prefix
of networks and continues with whatever the remainder produces. -/
theorem run_networks_append_ok (proc : String → Except String Unit) :
    ∀ ns1 : List String, (∀ m ∈ ns1, proc m = .ok ()) → ∀ l,
      Redemptions.run_networks proc (ns1 ++ l) =
        (ns1 ++ (Redemptions.run_networks proc l).1,
          (Redemptions.run_networks proc l).2) := by
  intro ns1
  induction ns1 with
  | nil => intro _ l; rfl
  | cons a as ih =>
    intro hok l
    have ha : proc a = .ok () := hok a (List.mem_cons_self a as)
    simp only [List.cons_append, Redemptions.run_networks, ha, List.append_eq]
    rw [ih (fun m hm => hok m (List.mem_cons_of_mem a hm)) l]

/-- The per-network try/except loop of the price phase attempts every
configured network. -/
theorem run_price_loop_attempts_all (proc : String → Except String Unit) :
    ∀ l : List String, (MainPipeline.run_price_loop proc l).map Prod.fst = l := by
  intro l
  induction l with
  | nil => rfl
  | cons a as ih => simp only [MainPipeline.run_price_loop, List.map_cons, ih]

/-- C4 counterexample: with two configured networks where processing the
first raises, the redemptions driver loop lets the exception escape and the
second network is never processed, refuting the claim that a failure in one
network is caught per network and does not prevent processing the rest. -/
theorem driver_failure_not_isolated :
    Redemptions.run_networks
        (fun n => if n = "fuse" then .error "ConnectionError" else .ok ())
        ["fuse", "base"] = ([], some "ConnectionError") ∧
      "base" ∉ (Redemptions.run_networks
        (fun n => if n = "fuse" then .error "ConnectionError" else .ok ())
        ["fuse", "base"]).1 := by
  constructor
  · rfl
  · intro hm
    rw [show (Redemptions.run_networks
        (fun n => if n = "fuse" then .error "ConnectionError" else .ok ())
        ["fuse", "base"]).1 = [] from rfl] at hm
    exact List.not_mem_nil _ hm

/-- C4 amended: failures are not caught per network by the driver loops of
`redemptions.main` (nor the on-chain fetch loop of `main.main`): processing
stops at the first failing network with the exception escaping, so the
remaining networks are not processed; only the historical-price loop of
`main.main` catches errors per network and attempts every network. -/
theorem driver_failure_isolation_amended (proc : String → Except String Unit)
    (ns1 ns2 : List String) (n : String) (e : String)
    (hfail : proc n = .error e) (hok : ∀ m ∈ ns1, proc m = .ok ()) :
    Redemptions.run_networks proc (ns1 ++ n :: ns2) = (ns1, some e) ∧
    ∀ proc2 : String → Except String Unit,
      (MainPipeline.run_price_loop proc2 (ns1 ++ n :: ns2)).map Prod.fst =
        ns1 ++ n :: ns2 := by
  constructor
  · rw [run_networks_append_ok proc ns1 hok (n :: ns2)]
    simp only [Redemptions.run_networks, hfail]
    simp
  · intro proc2
    exact run_price_loop_attempts_all proc2 (ns1 ++ n :: ns2)

/-- Witness for the amended C4 with networks `fuse, telos, base` where
processing `telos` fails. -/
theorem driver_failure_isolation_amended_witness :
    Redemptions.run_networks (fun m => if m = "telos" then .error "boom" else .ok ())
        (["fuse"] ++ "telos" :: ["base"]) = (["fuse"], some "boom") ∧
    ∀ proc2 : String → Except String Unit,
      (MainPipeline.run_price_loop proc2 (["fuse"] ++ "telos" :: ["base"])).map Prod.fst =
        ["fuse"] ++ "telos" :: ["base"] :=
  driver_failure_isolation_amended _ ["fuse"] ["base"] "telos" "boom" rfl
    (by intro m hm; rw [List.mem_singleton] at hm; subst hm; rfl)
